import Mathlib

/-!
Verification of the zOSINFO web page scripts (`script-public.js`,
`script-private.js`): data model, filter engine, cell classifier,
and the edit/export engine, embedded as pure Lean functions.
-/

namespace ZosInfo

/-- A row of the dataset: a JSON object mapping column names to string cell
values, kept as an ordered association list (first binding wins on lookup). -/
abbrev Row : Type := List (String × String)

/-- First-match lookup of a key in a row (JS property access on the object). -/
def jsGet (r : Row) (k : String) : Option String :=
  (List.find? (fun p => p.1 == k) r).map (fun p => p.2)

/-- `row[header] || ''`: a missing key (and the empty string itself) yields
the empty string. -/
def jsGetOrEmpty (r : Row) (k : String) : String :=
  match jsGet r k with
  | some v => v
  | none => ""

/-- `String(row[header])`: JS coerces a missing property (`undefined`) to the
string `"undefined"`. -/
def jsStringOfGet (r : Row) (k : String) : String :=
  match jsGet r k with
  | some v => v
  | none => "undefined"

/-- Character-wise lower casing, the embedding of `String.prototype.toLowerCase`. -/
def jsToLower (s : String) : String :=
  ⟨s.data.map Char.toLower⟩

/-- `sub` occurs at the very start of `l`. -/
def leadsList : List Char → List Char → Bool
  | [], _ => true
  | _ :: _, [] => false
  | a :: t, b :: u => a == b && leadsList t u

/-- `sub` occurs contiguously somewhere in `l`; the embedding of
`String.prototype.includes` on the underlying character lists. -/
def containsList (sub : List Char) : List Char → Bool
  | [] => sub.isEmpty
  | c :: t => leadsList sub (c :: t) || containsList sub t

/-- `s.includes(sub)` for strings. -/
def jsIncludes (s sub : String) : Bool :=
  containsList sub.toList s.toList

/-- `sub` is a contiguous substring of `s`. -/
def IsSubstrOf (sub s : String) : Prop :=
  ∃ pre post : List Char, s.toList = pre ++ sub.toList ++ post

/-- The two page configurations of the site. -/
structure PageConfig where
  htmlFile : String
  dataFile : String
  headers : List String

/-- `pageConfigs.home` from the source. -/
def pageConfigHome : PageConfig :=
  ⟨"zosinfo.html", "zosinfo-data.json", ["Vendor", "component/product", "type", "info"]⟩

/-- `pageConfigs.linkedin` from the source. -/
def pageConfigLinkedin : PageConfig :=
  ⟨"linkedin.html", "linkedin-data.json", ["Sno", "topic", "link"]⟩

/-- One row passes the per-column filters: for every column (paired with its
filter string), the lower-cased filter is contained in the lower-cased cell
text `String(row[header])`.  Embeds the row predicate inside `filterTable`. -/
def rowPassesFilters (headers filterValues : List String) (row : Row) : Bool :=
  (filterValues.zip headers).all
    (fun p => jsIncludes (jsToLower (jsStringOfGet row p.2)) p.1)

/-- `filterTable` from the source: lower-case the raw filter inputs, keep the
rows passing every column's filter. -/
def filterTable (headers fs : List String) (ds : List Row) : List Row :=
  let filterValues := fs.map jsToLower
  ds.filter (fun row => rowPassesFilters headers filterValues row)

/-- The claim's row predicate as the spec words it: for every column the
lower-cased filter string is a substring of the lower-cased cell value, a key
missing from the row treated as the empty string. -/
def specRowMatches (headers fs : List String) (r : Row) : Bool :=
  (fs.zip headers).all (fun p => jsIncludes (jsToLower (jsGetOrEmpty r p.2)) (jsToLower p.1))

/-- The filter operation as the spec words it (missing key = empty string),
for comparison with `filterTable`. -/
def filterTableSpec (headers fs : List String) (ds : List Row) : List Row :=
  ds.filter (specRowMatches headers fs)

/-- The row predicate `filterTable` actually computes, at the spec's level of
description: identical to `specRowMatches` except that a missing key is the
string `"undefined"`. -/
def specRowMatchesUndef (headers fs : List String) (r : Row) : Bool :=
  (fs.zip headers).all (fun p => jsIncludes (jsToLower (jsStringOfGet r p.2)) (jsToLower p.1))

/-- The amended description of the filter operation (missing key coerced to
`"undefined"`). -/
def filterTableSpecUndef (headers fs : List String) (ds : List Row) : List Row :=
  ds.filter (specRowMatchesUndef headers fs)

/-- The rendering chosen for one table cell by `formatCellContent`. -/
inductive CellView where
  | link (href text : String)
  | pre (content : String)
  | plain (text : String)
deriving DecidableEq

/-- `s.startsWith(pre)` for strings. -/
def jsStartsWith (s pre : String) : Bool :=
  leadsList pre.toList s.toList

/-- `String.prototype.trim`: strip whitespace from both ends. -/
def jsTrim (s : String) : String :=
  ⟨((s.toList.dropWhile Char.isWhitespace).reverse.dropWhile Char.isWhitespace).reverse⟩

/-- A character ending a line: `\r` or `\n`. -/
def isNewlineChar (c : Char) : Bool :=
  c == '\n' || c == '\r'

/-- Splitting on `/[\r\n]+/`: maximal runs of newline characters separate the
pieces (so consecutive newlines produce no empty piece in between).  `inRun`
records whether the previous character was part of a newline run. -/
def splitRunsAux (inRun : Bool) (acc : List Char) : List Char → List (List Char)
  | [] => [acc.reverse]
  | c :: rest =>
    if isNewlineChar c then
      if inRun then splitRunsAux true acc rest
      else acc.reverse :: splitRunsAux true [] rest
    else
      splitRunsAux false (c :: acc) rest

/-- `value.split(/[\r\n]+/)` from the source. -/
def splitNewlineRuns (s : String) : List String :=
  (splitRunsAux false [] s.toList).map (fun l => ⟨l⟩)

/-- The lines the JCL branch keeps and rejoins: drop every line whose trimmed
form starts with `"// "`, join the rest with `\n`. -/
def jclContent (value : String) : String :=
  String.intercalate "\n"
    ((splitNewlineRuns value).filter (fun line => !(jsStartsWith (jsTrim line) "// ")))

/-- `formatCellContent` from the source: URL check first, then the JCL-like
multi-line check, else plain text. -/
def formatCellContent (cellValue : String) : CellView :=
  let value := cellValue
  if jsStartsWith value "http://" || jsStartsWith value "https://" then
    CellView.link value value
  else if jsIncludes value "//" && jsIncludes value "\n" then
    CellView.pre (jclContent value)
  else
    CellView.plain value

/-- `currentData.indexOf(rowData)` starting the count at `n`: the position of
the first occurrence, `none` when absent. -/
def idxOfFrom (r : Row) : List Row → Nat → Option Nat
  | [], _ => none
  | a :: t, n => if a = r then some n else idxOfFrom r t (n + 1)

/-- `renderTableBody` from the source, reduced to the data it tracks: each
displayed row is looked up in the master array and rendered tagged with its
`dataset.originalIndex`; a row not found in the master array is skipped. -/
def renderTableBody (currentData displayed : List Row) : List (Nat × Row) :=
  displayed.filterMap (fun r => (idxOfFrom r currentData 0).map (fun i => (i, r)))

/-- Editor page state: the authoritative data array, the mode flag and the
selected row index (`-1` for no selection). -/
structure EditorState where
  currentData : List Row
  isEditMode : Bool
  selectedRowIndex : Int
deriving DecidableEq

/-- A file offered to the user for download. -/
structure Download where
  filename : String
  content : String
deriving DecidableEq

/-- JS `parseInt(s, 10)`: skip leading whitespace, an optional sign, then the
longest run of decimal digits; `none` (NaN) when that run is empty. -/
def digitsToNat (ds : List Char) : Nat :=
  ds.foldl (fun acc c => acc * 10 + (c.toNat - Char.toNat '0')) 0

def jsParseInt (s : String) : Option Int :=
  let cs := s.toList.dropWhile (fun c => c.isWhitespace)
  let signAndRest : Bool × List Char :=
    match cs with
    | '-' :: t => (true, t)
    | '+' :: t => (false, t)
    | _ => (false, cs)
  let digits := signAndRest.2.takeWhile (fun c => c.isDigit)
  if digits.isEmpty then none
  else some ((if signAndRest.1 then -1 else 1) * Int.ofNat (digitsToNat digits))

/-- A fresh empty row: every configured column mapped to the empty string. -/
def emptyRow (headers : List String) : Row :=
  headers.map (fun h => (h, ""))

/-- The add-rows branch of `handleF6` (edit mode already on): parse the
user's count with `parseInt`; `NaN` or a value below 1 is rejected with a
message (second component `true`) leaving the data unchanged, otherwise that
many empty rows are appended. -/
def handleF6Add (headers : List String) (ds : List Row) (numRowsStr : String) :
    List Row × Bool :=
  match jsParseInt numRowsStr with
  | none => (ds, true)
  | some n =>
    if n < 1 then (ds, true)
    else (ds ++ List.replicate n.toNat (emptyRow headers), false)

/-- Modelled from the spec: the user's input "validated to be a positive
integer" — the whole string is a decimal numeral denoting an integer `N ≥ 1`. -/
def strDenotesPosInt (s : String) : Bool :=
  !s.toList.isEmpty && s.toList.all Char.isDigit && decide (1 ≤ digitsToNat s.toList)

/-- `handleF7` from the source: in edit mode with a selection, `splice` the
selected index out of the data and clear the selection; with no selection,
report (second component `true`) and change nothing; outside edit mode do
nothing silently. -/
def handleF7 (st : EditorState) : EditorState × Bool :=
  if st.isEditMode then
    if st.selectedRowIndex > -1 then
      (⟨st.currentData.eraseIdx st.selectedRowIndex.toNat, st.isEditMode, -1⟩, false)
    else (st, true)
  else (st, false)

/-- One reconciled row read back from a rendered table row: each cell's text,
trimmed, keyed by its column's header. -/
def domRecord (headers : List String) (cells : List String) : Row :=
  (headers.zip cells).map (fun p => (p.1, jsTrim p.2))

/-- The `domChanges` map of `handleEscape`: look up the rendered row tagged
with original index `i` (rendered rows carry pairwise distinct indices). -/
def domLookup (headers : List String) (dom : List (Nat × List String)) (i : Nat) :
    Option Row :=
  (dom.find? (fun p => p.1 == i)).map (fun p => domRecord headers p.2)

/-- `map` with the element's index, starting the count at `n`. -/
def mapIdxFrom {α β : Type} (f : Nat → α → β) (n : Nat) : List α → List β
  | [] => []
  | a :: t => f n a :: mapIdxFrom f (n + 1) t

/-- `(row[header] || '').trim() === ''` for every configured column. -/
def rowAllEmpty (headers : List String) (r : Row) : Bool :=
  headers.all (fun h => jsTrim (jsGetOrEmpty r h) == "")

/-- One escaped character of `JSON.stringify`'s string quoting. -/
def jsonEscapeChar (c : Char) : String :=
  if c = '"' then "\\\""
  else if c = '\\' then "\\\\"
  else if c = '\n' then "\\n"
  else if c = '\r' then "\\r"
  else if c = '\t' then "\\t"
  else String.mk [c]

def jsonEscape (s : String) : String :=
  String.join (s.toList.map jsonEscapeChar)

/-- One `"key": "value"` member line at the given indent. -/
def stringifyField (indent : String) (p : String × String) : String :=
  indent ++ "\"" ++ jsonEscape p.1 ++ "\": \"" ++ jsonEscape p.2 ++ "\""

/-- One array element of the pretty-printed output, indented two spaces. -/
def stringifyRowElem (r : Row) : String :=
  match r with
  | [] => "  \x7b\x7d"
  | _ => "  \x7b\n" ++ String.intercalate ",\n" (r.map (stringifyField "    ")) ++ "\n  \x7d"

/-- `JSON.stringify(data, null, 2)` for an array of flat string objects:
two-space indentation, one member per line. -/
def stringifyRows (rows : List Row) : String :=
  match rows with
  | [] => "[]"
  | _ => "[\n" ++ String.intercalate ",\n" (rows.map stringifyRowElem) ++ "\n]"

/-- `handleEscape` from the source: outside edit mode do nothing; in edit
mode overwrite each row whose index appears in the rendered table with the
trimmed DOM text, keep the others, drop rows entirely empty across the
configured columns, store the result back, offer it pretty-printed for
download under the configured file name, and return to view mode. -/
def handleEscape (cfg : PageConfig) (dom : List (Nat × List String)) (st : EditorState) :
    EditorState × Option Download :=
  if st.isEditMode then
    let updatedData :=
      (mapIdxFrom (fun i r => (domLookup cfg.headers dom i).getD r) 0 st.currentData).filter
        (fun r => !(rowAllEmpty cfg.headers r))
    (⟨updatedData, false, st.selectedRowIndex⟩,
      some ⟨cfg.dataFile, stringifyRows updatedData⟩)
  else (st, none)

/-- A JSON document, as `response.json()` would produce it. -/
inductive Json where
  | null
  | bool (b : Bool)
  | num (n : Int)
  | str (s : String)
  | arr (elems : List Json)
  | obj (fields : List (String × Json))

/-- Whether a JSON document is an array. -/
def Json.isArr : Json → Bool
  | .arr _ => true
  | _ => false

/-- The observable outcome of `fetch` plus `response.json()`: a network
error, or a response with an `ok` flag and the body's parse result
(`none` = parse error). -/
inductive FetchOutcome where
  | networkError
  | response (ok : Bool) (parsed : Option Json)

/-- The `try` body of `loadDataFromFile`: a network error rejects, a
non-`ok` status throws, `response.json()` rejects on a parse error, and
otherwise the parsed document is returned as is. -/
def fetchAndParse : FetchOutcome → Except String Json
  | .networkError => .error "network error"
  | .response ok parsed =>
    if ok then
      match parsed with
      | some v => .ok v
      | none => .error "parse error"
    else .error "status error"

/-- `loadDataFromFile` from the source: the `catch` turns every failure into
an alert (second component `true`) and the empty array. -/
def loadDataFromFile (o : FetchOutcome) : Json × Bool :=
  match fetchAndParse o with
  | .ok v => (v, false)
  | .error _ => (Json.arr [], true)

theorem leadsList_iff (a : List Char) : ∀ b, leadsList a b = true ↔ ∃ t, b = a ++ t := by
  induction a with
  | nil => intro b; simp [leadsList]
  | cons x xs ih =>
    intro b
    cases b with
    | nil => simp [leadsList]
    | cons y ys =>
      simp only [leadsList, Bool.and_eq_true, beq_iff_eq, ih, List.cons_append,
        List.cons.injEq]
      constructor
      · rintro ⟨rfl, t, rfl⟩
        exact ⟨t, rfl, rfl⟩
      · rintro ⟨t, rfl, rfl⟩
        exact ⟨rfl, t, rfl⟩

theorem containsList_iff (sub : List Char) :
    ∀ l, containsList sub l = true ↔ ∃ pre post, l = pre ++ sub ++ post := by
  intro l
  induction l with
  | nil =>
    simp only [containsList, List.isEmpty_iff]
    constructor
    · rintro rfl
      exact ⟨[], [], rfl⟩
    · rintro ⟨pre, post, h⟩
      rcases List.append_eq_nil.mp h.symm with ⟨h2, -⟩
      rcases List.append_eq_nil.mp h2 with ⟨-, h1⟩
      exact h1
  | cons c t ih =>
    simp only [containsList, Bool.or_eq_true, leadsList_iff, ih]
    constructor
    · rintro (⟨tl, htl⟩ | ⟨pre, post, rfl⟩)
      · exact ⟨[], tl, by simpa using htl⟩
      · exact ⟨c :: pre, post, rfl⟩
    · rintro ⟨pre, post, h⟩
      cases pre with
      | nil =>
        exact Or.inl ⟨post, by simpa using h⟩
      | cons p ps =>
        rcases List.cons.injEq .. ▸ h with ⟨-, h2⟩
        exact Or.inr ⟨ps, post, by simpa using h2⟩

theorem jsIncludes_iff (s sub : String) : jsIncludes s sub = true ↔ IsSubstrOf sub s :=
  containsList_iff sub.toList s.toList

theorem containsList_nil (l : List Char) : containsList [] l = true := by
  cases l <;> simp [containsList, leadsList]

theorem toList_jsToLower (s : String) : (jsToLower s).toList = s.toList.map Char.toLower :=
  rfl

theorem substrOf_map_toLower {a b : String} (h : IsSubstrOf a b) :
    IsSubstrOf (jsToLower a) (jsToLower b) := by
  obtain ⟨pre, post, hb⟩ := h
  refine ⟨pre.map Char.toLower, post.map Char.toLower, ?_⟩
  rw [toList_jsToLower, toList_jsToLower, hb]
  simp

theorem substrOf_trans {a b c : String} (hab : IsSubstrOf a b) (hbc : IsSubstrOf b c) :
    IsSubstrOf a c := by
  obtain ⟨p1, q1, hb⟩ := hab
  obtain ⟨p2, q2, hc⟩ := hbc
  refine ⟨p2 ++ p1, q1 ++ q2, ?_⟩
  rw [hc, hb]
  simp

/-- C6: the data loader returns the parsed JSON document on success; on any
failure — network error, non-success status or parse error — it catches the
exception, alerts the user (second component `true`) and returns the empty
array, so the page proceeds with an empty table. -/
theorem c6_loadDataFromFile_total (o : FetchOutcome) :
    (∀ v, fetchAndParse o = .ok v → loadDataFromFile o = (v, false)) ∧
    (∀ e, fetchAndParse o = .error e → loadDataFromFile o = (Json.arr [], true)) ∧
    loadDataFromFile FetchOutcome.networkError = (Json.arr [], true) ∧
    (∀ p, loadDataFromFile (.response false p) = (Json.arr [], true)) ∧
    loadDataFromFile (.response true none) = (Json.arr [], true) ∧
    (∀ v, loadDataFromFile (.response true (some v)) = (v, false)) := by
  refine ⟨fun v hv => ?_, fun e he => ?_, rfl, fun p => rfl, rfl, fun v => rfl⟩
  · simp [loadDataFromFile, hv]
  · simp [loadDataFromFile, he]

/-- C6 witness: a successful fetch of an empty array and a network error,
evaluated concretely. -/
theorem c6_witness :
    loadDataFromFile (.response true (some (Json.arr []))) = (Json.arr [], false) ∧
    loadDataFromFile FetchOutcome.networkError = (Json.arr [], true) :=
  ⟨(c6_loadDataFromFile_total (.response true (some (Json.arr [])))).2.2.2.2.2 _,
   (c6_loadDataFromFile_total FetchOutcome.networkError).2.2.1⟩

/-- C10: when the response is a success and the body parses, the parsed value
is returned unchanged even when it is not an array — the success path checks
nothing about its shape. -/
theorem c10_load_no_array_check (v : Json) (_hv : v.isArr = false) :
    loadDataFromFile (.response true (some v)) = (v, false) :=
  rfl

/-- C10 witness: a JSON object (not an array) is passed through unchanged. -/
theorem c10_witness :
    (Json.obj []).isArr = false ∧
    loadDataFromFile (.response true (some (Json.obj []))) = (Json.obj [], false) :=
  ⟨rfl, c10_load_no_array_check (Json.obj []) rfl⟩

/-- C4: the cell classifier applies its rules in order, first match winning:
a value starting with `http://` or `https://` becomes a link whose text is
the URL; otherwise a value containing both `//` and a newline becomes a
preformatted block of its lines minus those whose trimmed form starts with
`"// "`, rejoined with newlines; otherwise plain text; a missing key is
rendered from the empty string; and the spec's example value keeps exactly
the lines `line1` and `line2`. -/
theorem c4_formatCellContent_classifier (v : String) :
    ((jsStartsWith v "http://" || jsStartsWith v "https://") = true →
      formatCellContent v = CellView.link v v) ∧
    ((jsStartsWith v "http://" || jsStartsWith v "https://") = false →
      (jsIncludes v "//" && jsIncludes v "\n") = true →
      formatCellContent v = CellView.pre (String.intercalate "\n"
        ((splitNewlineRuns v).filter (fun line => !(jsStartsWith (jsTrim line) "// "))))) ∧
    ((jsStartsWith v "http://" || jsStartsWith v "https://") = false →
      (jsIncludes v "//" && jsIncludes v "\n") = false →
      formatCellContent v = CellView.plain v) ∧
    (∀ (r : Row) (k : String), jsGet r k = none → jsGetOrEmpty r k = "") ∧
    formatCellContent "line1\n// comment\nline2" = CellView.pre "line1\nline2" := by
  refine ⟨fun h1 => ?_, fun h1 h2 => ?_, fun h1 h2 => ?_, fun r k hk => ?_, by decide⟩
  · simp [formatCellContent, h1]
  · simp [formatCellContent, jclContent, h1, h2]
  · simp [formatCellContent, h1, h2]
  · simp [jsGetOrEmpty, hk]

/-- C4 witness: the three classifier branches at concrete values. -/
theorem c4_witness :
    formatCellContent "http://x" = CellView.link "http://x" "http://x" ∧
    formatCellContent "a//b\nc" = CellView.pre (String.intercalate "\n"
      ((splitNewlineRuns "a//b\nc").filter
        (fun line => !(jsStartsWith (jsTrim line) "// ")))) ∧
    formatCellContent "hello" = CellView.plain "hello" :=
  ⟨(c4_formatCellContent_classifier "http://x").1 (by decide),
   (c4_formatCellContent_classifier "a//b\nc").2.1 (by decide) (by decide),
   (c4_formatCellContent_classifier "hello").2.2.1 (by decide) (by decide)⟩

theorem all_zip_iff (f : String × String → Bool) (a : List String) :
    ∀ b : List String, ((a.zip b).all f = true ↔
      ∀ (j : Nat) (x y : String), a[j]? = some x → b[j]? = some y → f (x, y) = true) := by
  induction a with
  | nil => intro b; simp
  | cons x xs ih =>
    intro b
    cases b with
    | nil => simp
    | cons y ys =>
      simp only [List.zip_cons_cons, List.all_cons, Bool.and_eq_true, ih]
      constructor
      · rintro ⟨hxy, h⟩ j u w hu hw
        cases j with
        | zero =>
          simp only [List.getElem?_cons_zero, Option.some.injEq] at hu hw
          rw [← hu, ← hw]
          exact hxy
        | succ j =>
          exact h j u w (by simpa using hu) (by simpa using hw)
      · intro h
        exact ⟨h 0 x y (by simp) (by simp),
          fun j u w hu hw => h (j + 1) u w (by simpa using hu) (by simpa using hw)⟩

/-- C1 (counterexample): on a row missing the `Vendor` key, the filter string
`"undef"` matches under the code (the missing key is coerced to the string
`"undefined"`), while the claim's missing-key-as-empty-string reading
excludes the row. -/
theorem c1_counterexample :
    filterTable ["Vendor"] ["undef"] [([] : Row)] ≠
      filterTableSpec ["Vendor"] ["undef"] [([] : Row)] := by
  decide

theorem zip_map_left_all (g : String → String) (f : String × String → Bool)
    (a b : List String) :
    ((a.map g).zip b).all f = (a.zip b).all (fun p => f (g p.1, p.2)) := by
  rw [List.zip_map_left, List.all_map]
  have hf : (f ∘ Prod.map g id) = (fun p : String × String => f (g p.1, p.2)) := by
    funext p
    cases p
    rfl
  rw [hf]

/-- C1 (amended): the filter operation returns exactly the subsequence of
rows in which every column's filter string is a case-insensitive substring of
the cell value, a key missing from a row being coerced to the string
`"undefined"` (not the empty string); an all-empty filter assignment keeps
every row; and the authoritative dataset itself is untouched (the result is
a fresh subsequence of it). -/
theorem c1_filterTable_amended (headers fs : List String) (ds : List Row) :
    List.Sublist (filterTable headers fs ds) ds ∧
    filterTable headers fs ds = filterTableSpecUndef headers fs ds ∧
    ((∀ f ∈ fs, f = "") → filterTable headers fs ds = ds) := by
  have hpred : ∀ row : Row,
      rowPassesFilters headers (fs.map jsToLower) row
        = specRowMatchesUndef headers fs row := by
    intro row
    unfold rowPassesFilters specRowMatchesUndef
    exact zip_map_left_all jsToLower _ fs headers
  refine ⟨List.filter_sublist _, ?_, ?_⟩
  · unfold filterTable filterTableSpecUndef
    exact List.filter_congr (fun row _ => hpred row)
  · intro hf
    unfold filterTable
    apply List.filter_eq_self.mpr
    intro row _
    rw [hpred]
    unfold specRowMatchesUndef
    apply List.all_eq_true.mpr
    rintro ⟨f, h⟩ hmem
    have hf' : f = "" := hf f (List.of_mem_zip hmem).1
    subst hf'
    exact containsList_nil _

/-- C1 witness: with every filter empty the full dataset survives as its own
subsequence, at a concrete dataset. -/
theorem c1_witness :
    List.Sublist
      (filterTable ["Vendor"] [""] [[("Vendor", "IBM Corp")], [("Vendor", "Broadcom")]])
      [[("Vendor", "IBM Corp")], [("Vendor", "Broadcom")]] ∧
    filterTable ["Vendor"] [""] [[("Vendor", "IBM Corp")], [("Vendor", "Broadcom")]]
      = [[("Vendor", "IBM Corp")], [("Vendor", "Broadcom")]] :=
  ⟨(c1_filterTable_amended ["Vendor"] [""]
      [[("Vendor", "IBM Corp")], [("Vendor", "Broadcom")]]).1,
   (c1_filterTable_amended ["Vendor"] [""]
      [[("Vendor", "IBM Corp")], [("Vendor", "Broadcom")]]).2.2 (by decide)⟩

/-- C9: tightening one column's filter string — replacing it by a string of
which it is a substring — while leaving the others unchanged yields a
filtered row set that is a subsequence (hence subset) of the original one. -/
theorem c9_filter_monotone (headers : List String) (ds : List Row) (fs : List String)
    (i : Nat) (old new : String) (hold : fs[i]? = some old) (hsub : IsSubstrOf old new) :
    List.Sublist (filterTable headers (fs.set i new) ds) (filterTable headers fs ds) := by
  apply List.monotone_filter_right
  intro row hrow
  unfold rowPassesFilters at hrow ⊢
  rw [all_zip_iff] at hrow ⊢
  intro j x y hx hy
  rcases eq_or_ne j i with rfl | hne
  · rw [List.getElem?_map, hold] at hx
    simp only [Option.map_some', Option.some.injEq] at hx
    obtain ⟨hilt, -⟩ := List.getElem?_eq_some.mp hold
    have hx' : ((fs.set j new).map jsToLower)[j]? = some (jsToLower new) := by
      rw [List.getElem?_map, List.getElem?_set_self (by simpa using hilt)]
      rfl
    have hnew := hrow j (jsToLower new) y hx' hy
    have hcell : IsSubstrOf (jsToLower new) (jsToLower (jsStringOfGet row y)) :=
      (jsIncludes_iff _ _).mp hnew
    have hold' : IsSubstrOf (jsToLower old) (jsToLower new) := substrOf_map_toLower hsub
    rw [← hx]
    exact (jsIncludes_iff _ _).mpr (substrOf_trans hold' hcell)
  · apply hrow j x y _ hy
    rw [List.getElem?_map] at hx ⊢
    rw [List.getElem?_set_ne (by omega)]
    exact hx

/-- C9 witness: tightening `"i"` to `"ib"` on a two-row dataset, the new
result is a subsequence of the old. -/
theorem c9_witness :
    (["i"] : List String)[0]? = some "i" ∧ IsSubstrOf "i" "ib" ∧
    List.Sublist
      (filterTable ["Vendor"] (["i"].set 0 "ib")
        [[("Vendor", "IBM Corp")], [("Vendor", "Dell")]])
      (filterTable ["Vendor"] ["i"]
        [[("Vendor", "IBM Corp")], [("Vendor", "Dell")]]) :=
  ⟨rfl, ⟨[], ['b'], by decide⟩,
   c9_filter_monotone ["Vendor"] [[("Vendor", "IBM Corp")], [("Vendor", "Dell")]]
     ["i"] 0 "i" "ib" rfl ⟨[], ['b'], by decide⟩⟩

/-- C5 (counterexample): `"3.7"` does not denote a positive integer, yet the
add-rows action accepts it via `parseInt` and appends three empty rows
instead of rejecting the input and leaving the dataset unchanged. -/
theorem c5_counterexample :
    strDenotesPosInt "3.7" = false ∧
    handleF6Add pageConfigLinkedin.headers [] "3.7"
      = ([emptyRow pageConfigLinkedin.headers, emptyRow pageConfigLinkedin.headers,
          emptyRow pageConfigLinkedin.headers], false) := by
  constructor
  · decide
  · decide

/-- C5 (amended): the action appends `parseInt(input, 10)` empty rows — the
integer read from the input's leading numeral after optional whitespace and
sign — whenever that value is at least 1, and rejects with a message leaving
the dataset unchanged exactly when `parseInt` yields `NaN` or a value below
1. -/
theorem c5_handleF6Add_amended (headers : List String) (ds : List Row) (s : String) :
    (jsParseInt s = none → handleF6Add headers ds s = (ds, true)) ∧
    (∀ n : Int, jsParseInt s = some n → n < 1 → handleF6Add headers ds s = (ds, true)) ∧
    (∀ n : Int, jsParseInt s = some n → 1 ≤ n →
      (handleF6Add headers ds s).2 = false ∧
      (handleF6Add headers ds s).1.length = ds.length + n.toNat ∧
      (handleF6Add headers ds s).1.take ds.length = ds ∧
      ∀ r ∈ (handleF6Add headers ds s).1.drop ds.length, r = emptyRow headers) := by
  refine ⟨fun h => ?_, fun n h hn => ?_, fun n h hn => ?_⟩
  · simp [handleF6Add, h]
  · simp [handleF6Add, h, hn]
  · have hlt : ¬ n < 1 := by omega
    have he : handleF6Add headers ds s
        = (ds ++ List.replicate n.toNat (emptyRow headers), false) := by
      unfold handleF6Add
      rw [h]
      simp [hlt]
    rw [he]
    refine ⟨rfl, ?_, ?_, ?_⟩
    · simp
    · simp [List.take_left]
    · intro r hr
      rw [List.drop_left] at hr
      exact List.eq_of_mem_replicate hr

/-- C5 witness: input `"2"` appends two empty rows to an empty dataset. -/
theorem c5_witness :
    (handleF6Add ["Sno"] [] "2").2 = false ∧
    (handleF6Add ["Sno"] [] "2").1.length = 0 + (2 : Int).toNat ∧
    (handleF6Add ["Sno"] [] "2").1.take 0 = [] ∧
    ∀ r ∈ (handleF6Add ["Sno"] [] "2").1.drop 0, r = emptyRow ["Sno"] := by
  have h := (c5_handleF6Add_amended ["Sno"] [] "2").2.2 2 (by decide) (by decide)
  simpa using h

theorem eraseIdx_getElem?_lt {α : Type} :
    ∀ (l : List α) (k j : Nat), j < k → (l.eraseIdx k)[j]? = l[j]? := by
  intro l
  induction l with
  | nil => intro k j _; rfl
  | cons a t ih =>
    intro k j hj
    cases k with
    | zero => omega
    | succ k =>
      cases j with
      | zero => simp [List.eraseIdx_cons_succ]
      | succ j =>
        simp only [List.eraseIdx_cons_succ, List.getElem?_cons_succ]
        exact ih k j (by omega)

theorem eraseIdx_getElem?_ge {α : Type} :
    ∀ (l : List α) (k j : Nat), k ≤ j → (l.eraseIdx k)[j]? = l[j + 1]? := by
  intro l
  induction l with
  | nil => intro k j _; rfl
  | cons a t ih =>
    intro k j hk
    cases k with
    | zero => simp [List.eraseIdx_cons_zero]
    | succ k =>
      cases j with
      | zero => omega
      | succ j =>
        simp only [List.eraseIdx_cons_succ, List.getElem?_cons_succ]
        exact ih k j (by omega)

/-- C7: in edit mode, with a selection in range the delete action removes
exactly the selected row (the rows before it keep their places, those after
shift down by one), clears the selection and stays silent; with no selection
it alerts and leaves the whole state unchanged. -/
theorem c7_handleF7_spec (st : EditorState) (hmode : st.isEditMode = true) :
    (st.selectedRowIndex = -1 → handleF7 st = (st, true)) ∧
    (∀ k : Nat, st.selectedRowIndex = Int.ofNat k → k < st.currentData.length →
      (handleF7 st).2 = false ∧
      (handleF7 st).1.selectedRowIndex = -1 ∧
      (handleF7 st).1.isEditMode = true ∧
      (handleF7 st).1.currentData.length + 1 = st.currentData.length ∧
      (∀ j, j < k → (handleF7 st).1.currentData[j]? = st.currentData[j]?) ∧
      (∀ j, k ≤ j → (handleF7 st).1.currentData[j]? = st.currentData[j + 1]?)) := by
  constructor
  · intro hsel
    simp [handleF7, hmode, hsel]
  · intro k hsel hk
    have hgt : st.selectedRowIndex > -1 := by
      rw [hsel, Int.ofNat_eq_natCast]
      omega
    have htn : st.selectedRowIndex.toNat = k := by
      rw [hsel]
      rfl
    have he : handleF7 st = (⟨st.currentData.eraseIdx k, st.isEditMode, -1⟩, false) := by
      simp [handleF7, hmode, hgt, htn]
    rw [he]
    refine ⟨rfl, rfl, hmode, ?_, fun j hj => ?_, fun j hj => ?_⟩
    · show (st.currentData.eraseIdx k).length + 1 = st.currentData.length
      rw [List.length_eraseIdx, if_pos hk]
      omega
    · exact eraseIdx_getElem?_lt _ k j hj
    · exact eraseIdx_getElem?_ge _ k j hj

/-- C7 witness: deleting the selected first row of a two-row dataset, and the
no-selection no-op, evaluated concretely. -/
theorem c7_witness :
    (handleF7 ⟨[[("Sno", "1")], [("Sno", "2")]], true, Int.ofNat 0⟩).1.currentData.length + 1 = 2 ∧
    (handleF7 ⟨[[("Sno", "1")], [("Sno", "2")]], true, Int.ofNat 0⟩).1.selectedRowIndex = -1 ∧
    handleF7 ⟨[[("Sno", "1")]], true, -1⟩ = (⟨[[("Sno", "1")]], true, -1⟩, true) := by
  have h := (c7_handleF7_spec ⟨[[("Sno", "1")], [("Sno", "2")]], true, Int.ofNat 0⟩ rfl).2
    0 rfl (by decide)
  have h2 := (c7_handleF7_spec ⟨[[("Sno", "1")]], true, -1⟩ rfl).1 rfl
  exact ⟨h.2.2.2.1, h.2.1, h2⟩

theorem idxOfFrom_spec (r : Row) :
    ∀ (l : List Row) (n m : Nat), idxOfFrom r l n = some m → n ≤ m ∧ l[m - n]? = some r := by
  intro l
  induction l with
  | nil => intro n m h; exact absurd h (by simp [idxOfFrom])
  | cons a t ih =>
    intro n m h
    unfold idxOfFrom at h
    by_cases ha : a = r
    · rw [if_pos ha] at h
      injection h with h
      subst h
      simp [ha]
    · rw [if_neg ha] at h
      obtain ⟨hle, hget⟩ := ih (n + 1) m h
      refine ⟨by omega, ?_⟩
      have : m - n = (m - (n + 1)) + 1 := by omega
      rw [this, List.getElem?_cons_succ]
      exact hget

/-- C8: every row rendered by the table body — whatever displayed subsequence
(full or filtered) it is given — carries an original index at which the
authoritative dataset holds exactly that row, so edits and deletions through
that index target the correct record. -/
theorem c8_render_index_consistent (currentData displayed : List Row) (i : Nat) (r : Row)
    (h : (i, r) ∈ renderTableBody currentData displayed) :
    currentData[i]? = some r := by
  unfold renderTableBody at h
  obtain ⟨r', -, heq⟩ := List.mem_filterMap.mp h
  obtain ⟨m, hm, hpair⟩ := Option.map_eq_some'.mp heq
  have h1 : m = i := congrArg Prod.fst hpair
  have h2 : r' = r := congrArg Prod.snd hpair
  have h3 := (idxOfFrom_spec r' _ 0 m hm).2
  rw [Nat.sub_zero] at h3
  rw [← h1, ← h2]
  exact h3

/-- C8 witness: the rendered filtered view of a two-row dataset tags its row
with index 1, and the dataset at index 1 is that row. -/
theorem c8_witness :
    ([[("Sno", "1")], [("Sno", "2")]] : List Row)[1]? = some [("Sno", "2")] :=
  c8_render_index_consistent [[("Sno", "1")], [("Sno", "2")]] [[("Sno", "2")]]
    1 [("Sno", "2")] (by decide)

theorem length_mapIdxFrom {α β : Type} (f : Nat → α → β) :
    ∀ (n : Nat) (l : List α), (mapIdxFrom f n l).length = l.length := by
  intro n l
  induction l generalizing n with
  | nil => rfl
  | cons a t ih => simp [mapIdxFrom, ih]

theorem getElem?_mapIdxFrom {α β : Type} (f : Nat → α → β) :
    ∀ (l : List α) (n i : Nat), (mapIdxFrom f n l)[i]? = (l[i]?).map (f (n + i)) := by
  intro l
  induction l with
  | nil => intro n i; simp [mapIdxFrom]
  | cons a t ih =>
    intro n i
    cases i with
    | zero => simp [mapIdxFrom]
    | succ i =>
      simp only [mapIdxFrom, List.getElem?_cons_succ]
      rw [ih (n + 1) i, show n + 1 + i = n + (i + 1) from by omega]

theorem mem_mapIdxFrom {α β : Type} (f : Nat → α → β) :
    ∀ (l : List α) (n : Nat) (b : β), b ∈ mapIdxFrom f n l →
      ∃ (i : Nat) (a : α), l[i]? = some a ∧ b = f (n + i) a := by
  intro l
  induction l with
  | nil =>
    intro n b h
    unfold mapIdxFrom at h
    exact absurd h (List.not_mem_nil _)
  | cons a t ih =>
    intro n b h
    unfold mapIdxFrom at h
    rcases List.mem_cons.mp h with h | h
    · exact ⟨0, a, by simp, by simpa using h⟩
    · obtain ⟨i, a', hget, hb⟩ := ih (n + 1) b h
      exact ⟨i + 1, a', by simpa using hget,
        by rw [hb, show n + 1 + i = n + (i + 1) from by omega]⟩

theorem find?_fst_nodup :
    ∀ (dom : List (Nat × List String)) (i : Nat) (cs : List String),
      (dom.map Prod.fst).Nodup → (i, cs) ∈ dom →
      dom.find? (fun p => p.1 == i) = some (i, cs) := by
  intro dom
  induction dom with
  | nil => intro i cs _ h; cases h
  | cons q t ih =>
    intro i cs hnd hmem
    obtain ⟨j, c⟩ := q
    rw [List.map_cons, List.nodup_cons] at hnd
    rcases List.mem_cons.mp hmem with heq | hmem'
    · injection heq with h1 h2
      subst h1
      subst h2
      rw [List.find?_cons_of_pos _ (by simp)]
    · by_cases hji : j = i
      · exact absurd (List.mem_map_of_mem Prod.fst hmem') (hji ▸ hnd.1)
      · rw [List.find?_cons_of_neg _ (by simp [hji])]
        exact ih i cs hnd.2 hmem'

theorem find?_fst_none (dom : List (Nat × List String)) (i : Nat)
    (h : ∀ cs, (i, cs) ∉ dom) :
    dom.find? (fun p => p.1 == i) = none := by
  apply List.find?_eq_none.mpr
  intro x hx hbeq
  have hxi : x.1 = i := by simpa using hbeq
  apply h x.2
  rw [← hxi, Prod.mk.eta]
  exact hx

/-- C2: in edit mode, the exit-and-save action replaces the dataset by the
reconciliation that overwrites each row whose index is rendered in the table
with the trimmed DOM text of its cells (rows not displayed keep their prior
values), then removes every row entirely empty across the configured
columns; the result is offered as a pretty-printed JSON download named after
the page's data file, and the mode returns to view. -/
theorem c2_handleEscape_spec (cfg : PageConfig) (dom : List (Nat × List String))
    (st : EditorState) (hmode : st.isEditMode = true)
    (hnd : (dom.map Prod.fst).Nodup) :
    ∃ reconciled : List Row,
      reconciled.length = st.currentData.length ∧
      (∀ i cells, (i, cells) ∈ dom → i < st.currentData.length →
        reconciled[i]? = some ((cfg.headers.zip cells).map (fun p => (p.1, jsTrim p.2)))) ∧
      (∀ i, i < st.currentData.length → (∀ cells, (i, cells) ∉ dom) →
        reconciled[i]? = st.currentData[i]?) ∧
      (handleEscape cfg dom st).1.currentData
        = reconciled.filter (fun r => !(rowAllEmpty cfg.headers r)) ∧
      (handleEscape cfg dom st).1.isEditMode = false ∧
      (handleEscape cfg dom st).2
        = some ⟨cfg.dataFile, stringifyRows ((handleEscape cfg dom st).1.currentData)⟩ := by
  refine ⟨mapIdxFrom (fun i r => (domLookup cfg.headers dom i).getD r) 0 st.currentData,
    length_mapIdxFrom .., ?_, ?_, ?_, ?_, ?_⟩
  · intro i cells hmem hi
    rw [getElem?_mapIdxFrom, Nat.zero_add, List.getElem?_eq_getElem hi]
    simp only [Option.map_some']
    unfold domLookup
    rw [find?_fst_nodup dom i cells hnd hmem]
    rfl
  · intro i hi hnone
    rw [getElem?_mapIdxFrom, Nat.zero_add, List.getElem?_eq_getElem hi]
    simp only [Option.map_some', Option.some.injEq]
    unfold domLookup
    rw [find?_fst_none dom i hnone]
    rfl
  · simp [handleEscape, hmode]
  · simp [handleEscape, hmode]
  · simp [handleEscape, hmode]

/-- C2 witness: a one-row dataset whose row is rendered and edited; after the
exit-and-save action the mode is view and the download carries the
configured file name. -/
theorem c2_witness :
    (handleEscape pageConfigHome [(0, ["x", "y", "z", "w"])]
      ⟨[[("Vendor", "a")]], true, -1⟩).1.isEditMode = false ∧
    ((handleEscape pageConfigHome [(0, ["x", "y", "z", "w"])]
      ⟨[[("Vendor", "a")]], true, -1⟩).2).map Download.filename = some "zosinfo-data.json" := by
  obtain ⟨-, -, -, -, -, h5, h6⟩ := c2_handleEscape_spec pageConfigHome
    [(0, ["x", "y", "z", "w"])] ⟨[[("Vendor", "a")]], true, -1⟩ rfl (by decide)
  exact ⟨h5, by rw [h6]; rfl⟩

/-- C3 (counterexample): a row holding an extra key `extra`, hidden from the
rendered table at save time (e.g. filtered out), is exported as is, so the
exported array is not made of objects having exactly the configured keys. -/
theorem c3_counterexample :
    ((handleEscape pageConfigHome []
        ⟨[[("Vendor", "a"), ("extra", "b")]], true, -1⟩).1.currentData.map
      (fun r => r.map Prod.fst)) ≠ [pageConfigHome.headers] := by
  decide

/-- C3 (amended): every exported row that was reconciled from the rendered
table has exactly the configured column names as keys, in order; hence when
every dataset index is rendered at save time (no filter hides any row) the
whole exported array has exactly the configured keys, and it is offered,
pretty-printed, under the original resource's file name. -/
theorem c3_export_keys (cfg : PageConfig) (dom : List (Nat × List String))
    (st : EditorState) (hmode : st.isEditMode = true)
    (hw : ∀ p ∈ dom, (p.2 : List String).length = cfg.headers.length)
    (hcov : ∀ i, i < st.currentData.length → ∃ cells, (i, cells) ∈ dom) :
    (∀ r ∈ (handleEscape cfg dom st).1.currentData, r.map Prod.fst = cfg.headers) ∧
    (handleEscape cfg dom st).2
      = some ⟨cfg.dataFile, stringifyRows ((handleEscape cfg dom st).1.currentData)⟩ := by
  constructor
  · intro r hr
    have hcd : (handleEscape cfg dom st).1.currentData
        = (mapIdxFrom (fun i r => (domLookup cfg.headers dom i).getD r) 0
            st.currentData).filter (fun r => !(rowAllEmpty cfg.headers r)) := by
      simp [handleEscape, hmode]
    rw [hcd] at hr
    obtain ⟨i, a, hget, hra⟩ := mem_mapIdxFrom _ _ _ _ (List.mem_of_mem_filter hr)
    rw [Nat.zero_add] at hra
    obtain ⟨hi, -⟩ := List.getElem?_eq_some.mp hget
    obtain ⟨cells, hcells⟩ := hcov i hi
    cases hfind : dom.find? (fun p => p.1 == i) with
    | none =>
      exact absurd (by simp : (((i, cells) : Nat × List String).1 == i) = true)
        (List.find?_eq_none.mp hfind (i, cells) hcells)
    | some q =>
      have hq : q ∈ dom := List.mem_of_find?_eq_some hfind
      have hlen := hw q hq
      rw [hra]
      show ((domLookup cfg.headers dom i).getD a).map Prod.fst = cfg.headers
      unfold domLookup
      rw [hfind]
      show (domRecord cfg.headers q.2).map Prod.fst = cfg.headers
      unfold domRecord
      rw [List.map_map]
      rw [show (Prod.fst ∘ fun p : String × String => (p.1, jsTrim p.2)) = Prod.fst
        from by funext p; rfl]
      exact List.map_fst_zip _ _ (le_of_eq hlen.symm)
  · simp [handleEscape, hmode]

/-- C3 witness: with the single row rendered, every exported row has exactly
the configured keys. -/
theorem c3_witness :
    (handleEscape pageConfigHome [(0, ["x", "y", "z", "w"])]
        ⟨[[("Vendor", "a")]], true, -1⟩).1.currentData.all
      (fun r => r.map Prod.fst == pageConfigHome.headers) = true := by
  have h := (c3_export_keys pageConfigHome [(0, ["x", "y", "z", "w"])]
    ⟨[[("Vendor", "a")]], true, -1⟩ rfl (by decide)
    (fun i hi => ⟨["x", "y", "z", "w"], by
      have h0 : i = 0 := Nat.lt_one_iff.mp hi
      subst h0
      simp⟩)).1
  rw [List.all_eq_true]
  intro r hr
  exact beq_iff_eq.mpr (h r hr)

end ZosInfo
